import Mathlib

/-!
Shallow embedding of the CEWS wildcard-shingle mining algorithm and of its
pattern encoders from the kshingle package (file kshingle/cews.py),
together with theorems checking the specification claims against this
embedding.

Modelling conventions:

* Python strings are lists of characters (`Str`); Python dicts are
  association lists in insertion order (`Memo`, `DB`).  Dict insertion of a
  fresh key is modelled as appending the binding at the end, and lookup
  returns the first binding of a key.
* The regular expressions built by the source always have the shape of the
  escaped pattern pieces joined by a single word-character class and
  anchored at both ends (cews.py lines 186 to 188 and 448 to 449); `rmatch`
  is the positional model of such an anchored match.  `isWordChar` models
  the word-character class of the re module on ASCII input.
* Python float arithmetic in the candidate selector is modelled by exact
  rational arithmetic.
* The unbounded recursion of expandshingle is modelled with an explicit
  fuel argument bounding the call depth; claims are stated for arbitrary
  fuel or evaluated at a fuel large enough for the recursion to finish.
* Stable Python sorts (list.sort and sorted are stable) are modelled by the
  stable insertion sort of Mathlib.
-/

namespace KShingle

abbrev Str := List Char

abbrev Memo := List (Str × Nat)

abbrev DB := List (Str × Nat)

deriving instance DecidableEq for Except

/-- Model of the word-character class used for a wildcard position, on
ASCII input: letters, digits and the underscore. -/
def isWordChar (c : Char) : Bool := c.isAlphanum || c == '_'

/-- Dict lookup: the first binding of the key, if any. -/
def plookup : Memo → Str → Option Nat
  | [], _ => none
  | kv :: m, k => if kv.1 == k then some kv.2 else plookup m k

def memoKeys (m : Memo) : List Str := m.map (·.1)

/-- Python subscript of the frequency table, defaulting to 0; the source
only ever reads keys that are present in the table. -/
def dbGet (db : DB) (k : Str) : Nat := (plookup db k).getD 0

/-- Python dict get of a length bucket with default empty list. -/
def pget : List (Nat × List Str) → Nat → List Str
  | [], _ => []
  | kv :: ps, n => if kv.1 == n then kv.2 else pget ps n

/-- Positional model of the anchored regex match built in cews.py lines
186 to 188: every wildcard occurrence of the pattern is replaced by one
word-character class, all other characters are literal, and the match is
anchored at both ends.  The same construction is used for the compiled
patterns of shingles_to_patterns (lines 448 to 449). -/
def rmatch (wc : Char) : Str → Str → Bool
  | [], [] => true
  | p :: ps, t :: ts => (if p == wc then isWordChar t else p == t) && rmatch wc ps ts
  | _, _ => false

/-- The candidate patterns of one expansion step (cews.py lines 162 to
178): the wildcard prepended, the wildcard appended, and for shingles of
length at least 3 each interior position replaced by the wildcard, where
the first interior position is skipped if the shingle starts with the
wildcard and the last interior position is skipped if it ends with the
wildcard. -/
def wildcardVariants (wc : Char) (s : Str) : List Str :=
  let base := [wc :: s, s ++ [wc]]
  if 3 ≤ s.length then
    let offS : Nat := 1 + (if s.head? == some wc then 1 else 0)
    let offE : Nat := 1 + (if s.getLast? == some wc then 1 else 0)
    base ++ (List.range' offS (s.length - offE - offS)).map
      (fun i => s.take i ++ wc :: s.drop (i + 1))
  else base

/-- The parameters threaded unchanged through the recursion: the frequency
table, the wildcard character and the selection thresholds. -/
structure Cfg where
  db : DB
  wildcard : Char
  maxWildcards : Nat
  minSamplesSplit : Int
  minSamplesLeaf : Int
  threshold : ℚ

/-- Stable descending sort by count (Python sorted with the negated count
as key). -/
def sortByCountDesc (l : List (Str × Nat)) : List (Str × Nat) :=
  l.insertionSort (fun a b => b.2 ≤ a.2)

/-- The selection loop of select_most_frequent_shingles (cews.py lines 77
to 88): walk the sorted candidates, skip those below min_samples_leaf,
stop at the first candidate whose cumulative share would exceed the
threshold.  Returns the selected keys and the count sum of the selected
candidates. -/
def selectWalk (minLeaf : Int) (threshold : ℚ) (total : Nat) :
    List (Str × Nat) → ℚ → Nat → List Str × Nat
  | [], _, cumcnt => ([], cumcnt)
  | (key, v) :: rest, cumpct, cumcnt =>
    if minLeaf ≤ (v : Int) then
      let cumpct2 := cumpct + (v : ℚ) / (total : ℚ)
      if threshold < cumpct2 then ([], cumcnt)
      else
        let r := selectWalk minLeaf threshold total rest cumpct2 (cumcnt + v)
        (key :: r.1, r.2)
    else selectWalk minLeaf threshold total rest cumpct cumcnt

/-- select_most_frequent_shingles (cews.py lines 9 to 91), with the float
accumulator replaced by an exact rational. -/
def select_most_frequent_shingles (cfg : Cfg) (matchList : List Str) : List Str × Nat :=
  let candidates := cfg.db.filter (fun kv => matchList.contains kv.1)
  if candidates.length = 0 then ([], 0)
  else if candidates.length = 1 then ([], (candidates.headD ([], 0)).2)
  else
    let sorted := sortByCountDesc candidates
    let total : Nat := (sorted.map (·.2)).sum
    if (total : Int) < cfg.minSamplesSplit then ([], total)
    else
      let r := selectWalk cfg.minSamplesLeaf cfg.threshold total sorted.dropLast 0 0
      (r.1, total - r.2)

/-- The regex query over the table keys (cews.py line 188). -/
def patternMatches (cfg : Cfg) (p : Str) : List Str :=
  (cfg.db.filter (fun kv => rmatch cfg.wildcard p kv.1)).map (·.1)

/-- One iteration of the candidate loop of expandshingle (cews.py lines
181 to 220), parameterised by the recursive call.  The nested branch
structure mirrors the source: the block visiting the selected shingles is
inside the branch that stores the wildcard pattern. -/
def expandStep (cfg : Cfg) (rec : Str → Memo → Memo) (memo : Memo) (snew : Str) : Memo :=
  if (plookup memo snew).isSome then memo
  else
    let sr := select_most_frequent_shingles cfg (patternMatches cfg snew)
    if cfg.minSamplesSplit ≤ (sr.2 : Int) then
      let m1 := rec snew (memo ++ [(snew, sr.2)])
      sr.1.foldl
        (fun m key =>
          if (plookup m key).isSome then m
          else rec key (m ++ [(key, dbGet cfg.db key)])) m1
    else memo

/-- The recursion of expandshingle once the min_samples_split check has
passed, with explicit fuel bounding the call depth.  The wildcard-count
guard of line 152 is re-checked on entry of every call, as in the
source. -/
def expandGo (cfg : Cfg) : Nat → Str → Memo → Memo
  | 0, _, memo => memo
  | fuel + 1, s, memo =>
    if cfg.maxWildcards ≤ s.count cfg.wildcard then memo
    else (wildcardVariants cfg.wildcard s).foldl (expandStep cfg (expandGo cfg fuel)) memo

/-- expandshingle (cews.py lines 94 to 222).  The two entry guards are
modelled in source order; since min_samples_split is passed unchanged into
every recursive call, the raise of lines 155 to 157 can only fire at the
entry of the outermost call, so the body under a passed check is the pure
recursion expandGo. -/
def expandshingle (cfg : Cfg) (fuel : Nat) (s : Str) (memo : Memo) : Except String Memo :=
  if cfg.maxWildcards ≤ s.count cfg.wildcard then .ok memo
  else if cfg.minSamplesSplit < 1 then
    .error "min_samples_split must be greater equal 1"
  else .ok (expandGo cfg fuel s memo)

/-- Python int() truncation of an exact rational toward zero. -/
def ratTrunc (q : ℚ) : Int := q.num / (q.den : Int)

/-- The processing order of the main loop of cews (cews.py lines 333 to
340). -/
def cewsShingles (dbList : DB) (priority : String) (vocabSize : Option Nat)
    (minLeaf : Int) : List Str :=
  if priority = "rare" then (dbList.map (·.1)).reverse
  else if priority = "common" ∧ vocabSize.isSome then
    (dbList.filter (fun kv => minLeaf ≤ (kv.2 : Int))).map (·.1)
  else dbList.map (·.1)

/-- The main loop of cews (cews.py lines 343 to 354) with the early-stop
check after each shingle. -/
def cewsLoop (cfg : Cfg) (fuel : Nat) (vocabSize : Option Nat) :
    List Str → Memo → Except String Memo
  | [], memo => .ok memo
  | s :: rest, memo => do
    let m2 ← expandshingle cfg fuel s memo
    match vocabSize with
    | some vs => if vs ≤ m2.length then .ok m2 else cewsLoop cfg fuel vocabSize rest m2
    | none => cewsLoop cfg fuel vocabSize rest m2

/-- cews (cews.py lines 225 to 357).  min_samples_leaf is modelled on its
integer path; the float and auto resolutions of lines 312 to 323 are
parameter preprocessing not touched by the claims.  The threshold
assertion of lines 326 to 327 is modelled as an error result. -/
def cews (db : DB) (memo0 : Memo) (wc : Char) (maxW : Nat)
    (minSplitOpt : Option Int) (minLeaf : Int) (threshold : ℚ)
    (priority : String) (vocabSize : Option Nat) (fuel : Nat) : Except String Memo :=
  let memo := if memo0.length = 0 then db.filter (fun kv => kv.1.length = 1) else memo0
  let dbList := sortByCountDesc db
  if 0 < threshold ∧ threshold ≤ 1 then
    let minSplit := minSplitOpt.getD (max 2 (ratTrunc ((minLeaf : ℚ) / threshold)))
    let cfg : Cfg := ⟨db, wc, maxW, minSplit, minLeaf, threshold⟩
    cewsLoop cfg fuel vocabSize (cewsShingles dbList priority vocabSize minLeaf) memo
  else .error "assert threshold in half-open unit interval failed"

/-- The comparison function sort_by_memostats (cews.py lines 360 to 401)
on statistics tuples of shingle, wildcard count, inner wildcard count,
length and stored count. -/
def sort_by_memostats (a b : Str × Nat × Nat × Nat × Nat) : Int :=
  if a.2.1 > b.2.1 then 1
  else if a.2.1 < b.2.1 then -1
  else if a.2.2.1 < b.2.2.1 then 1
  else if a.2.2.1 > b.2.2.1 then -1
  else if a.2.2.2.1 < b.2.2.2.1 then 1
  else if a.2.2.2.1 > b.2.2.2.1 then -1
  else if a.2.2.2.2 < b.2.2.2.2 then 1
  else if a.2.2.2.2 > b.2.2.2.2 then -1
  else 0

/-- The MEMOSTATS tuples (cews.py lines 431 to 433): the piece count of
splitting at the wildcard, minus one, equals the occurrence count of the
wildcard; the inner count drops the first and the last character
beforehand. -/
def memostats (wc : Char) (memo : Memo) : List (Str × Nat × Nat × Nat × Nat) :=
  memo.map (fun kv =>
    (kv.1, kv.1.count wc, ((kv.1.drop 1).dropLast).count wc, kv.1.length, kv.2))

/-- The sort relation induced by the comparator through
functools.cmp_to_key: a sorts no later than b when the comparator value is
nonpositive. -/
def msLe (a b : Str × Nat × Nat × Nat × Nat) : Prop := sort_by_memostats a b ≤ 0

instance : DecidableRel msLe := fun _ _ => Int.decLe _ _

/-- Appending one shingle to the bucket of its length in the bucket dict
(cews.py lines 442 to 450). -/
def updBucket : List (Nat × List Str) → Nat → Str → List (Nat × List Str)
  | [], n, p => [(n, [p])]
  | (m, ps) :: rest, n, p =>
    if m = n then (m, ps ++ [p]) :: rest else (m, ps) :: updBucket rest n p

/-- shingles_to_patterns (cews.py lines 404 to 451) restricted to dict
input: sort the memo statistics with the comparator, project the
shingles, and bucket them by length in iteration order.  A compiled
pattern is represented by the wildcard shingle it is built from; its
matcher is rmatch. -/
def shingles_to_patterns (wc : Char) (memo : Memo) : List (Nat × List Str) :=
  let sortedShingles := ((memostats wc memo).insertionSort msLe).map (·.1)
  sortedShingles.foldl (fun ps s => updBucket ps s.length s) []

/-- The ascending sort key tuple named by the specification: wildcard
count, negated inner wildcard count, negated length, negated stored
count. -/
def statKey (st : Str × Nat × Nat × Nat × Nat) : Nat × Int × Int × Int :=
  (st.2.1, -(st.2.2.1 : Int), -(st.2.2.2.1 : Int), -(st.2.2.2.2 : Int))

/-- Lexicographic order on the four-component sort key. -/
def keyLex (a b : Nat × Int × Int × Int) : Prop :=
  a.1 < b.1 ∨ (a.1 = b.1 ∧ (a.2.1 < b.2.1 ∨ (a.2.1 = b.2.1 ∧
    (a.2.2.1 < b.2.2.1 ∨ (a.2.2.1 = b.2.2.1 ∧ a.2.2.2 ≤ b.2.2.2)))))

/-- The total number of compiled patterns over all length buckets. -/
def patternsTotal (ps : List (Nat × List Str)) : Nat :=
  (ps.map (fun kv => kv.2.length)).sum

/-- The match loop of encode_with_patterns (cews.py lines 480 to 482):
the index of the first matching pattern of the bucket. -/
def ewpLoop (wc : Char) (x : Str) : List Str → Nat → Option Nat
  | [], _ => none
  | p :: rest, i => if rmatch wc p x then some i else ewpLoop wc x rest (i + 1)

/-- encode_with_patterns (cews.py lines 454 to 485) on a single token.
The Python fallback expression returns the supplied unknown id only when
it is truthy, so a missing id and the id 0 both fall back to the size of
the bucket of the token length. -/
def encode_with_patterns (wc : Char) (ps : List (Nat × List Str))
    (unkid : Option Int) (x : Str) : Int :=
  let bucket := pget ps x.length
  match ewpLoop wc x bucket 0 with
  | some i => (i : Int)
  | none =>
    match unkid with
    | some u => if u = 0 then (bucket.length : Int) else u
    | none => (bucket.length : Int)

/-- The scan of encode_multi_match_str (cews.py lines 494 to 499):
collect the offset-shifted indices of matching patterns, stopping once
num_matches ids have been collected. -/
def emmScan (wc : Char) (x : Str) (numMatches offset : Nat) :
    List Str → Nat → List Nat → List Nat
  | [], _, out => out
  | p :: rest, i, out =>
    if rmatch wc p x then
      let out2 := out ++ [i + offset]
      if numMatches ≤ out2.length then out2
      else emmScan wc x numMatches offset rest (i + 1) out2
    else emmScan wc x numMatches offset rest (i + 1) out

/-- encode_multi_match_str (cews.py lines 488 to 503): the scan result,
right-padded to num_matches entries with the unknown id. -/
def encode_multi_match_str (wc : Char) (plist : List Str) (offset numMatches unkid : Nat)
    (x : Str) : List Nat :=
  let out := emmScan wc x numMatches offset plist 0 []
  out ++ List.replicate (numMatches - out.length) unkid

/-- Model of re.finditer with an unanchored fixed-length pattern: the
left-to-right scan yields non-overlapping match start offsets, and after
a match at offset j the scan resumes at j plus the pattern length.  The
fuel is the remaining text length, sufficient because each step consumes
at least one character for the nonempty patterns arising from memo
keys. -/
def emmFindGo (wc : Char) (p : Str) : Nat → List Char → Nat → List Nat
  | 0, _, _ => []
  | _ + 1, [], _ => []
  | fuel + 1, c :: rest, j =>
    if rmatch wc p ((c :: rest).take p.length) then
      j :: emmFindGo wc p fuel ((c :: rest).drop p.length) (j + p.length)
    else emmFindGo wc p fuel rest (j + 1)

def emmFind (wc : Char) (p : Str) (text : Str) : List Nat :=
  emmFindGo wc p text.length text 0

/-- encode_multi_match_text (cews.py lines 563 to 596).  The anchors are
stripped for the full-text search; for every order n from 1 to k the scan
walks each bucket pattern over the whole text, writes the id at every
reported start offset whose result list still has room, and finally pads
every result list to the slot count of that order with the unknown
id. -/
def encode_multi_match_text (wc : Char) (text : Str) (k : Nat)
    (ps : List (Nat × List Str)) (numMatches unkid : Nat) : List (List Nat) :=
  let st0 : List (List Nat) × Nat × Nat := (List.replicate text.length [], 0, 0)
  let res := (List.range' 1 k).foldl
    (fun st n =>
      let endv := st.2.2 + min n numMatches
      let bucket := pget ps n
      let enc := bucket.enum.foldl
        (fun enc ip =>
          (emmFind wc ip.2 text).foldl
            (fun enc j =>
              if (enc.getD j []).length < endv then
                enc.modify (fun l => l ++ [ip.1 + st.2.1]) j
              else enc) enc)
        st.1
      let enc2 := enc.map (fun l => l ++ List.replicate (endv - l.length) unkid)
      (enc2, st.2.1 + bucket.length, endv))
    st0
  res.1

/-- Reference per-token encoder following the wording of the claim: at
every text position and for every order n from 1 to k, the window of
length n is encoded by encode_multi_match_str with the bucket of order n,
the cumulative size of the preceding buckets as offset, the minimum of n
and num_matches as slot count, and the shared unknown id; the per-order
id lists are concatenated. -/
def perTokenEncode (wc : Char) (text : Str) (k : Nat)
    (ps : List (Nat × List Str)) (numMatches unkid : Nat) : List (List Nat) :=
  (List.range text.length).map (fun j =>
    ((List.range' 1 k).map (fun n =>
      encode_multi_match_str wc (pget ps n)
        (((List.range' 1 (n - 1)).map (fun m => (pget ps m).length)).sum)
        (min n numMatches) unkid ((text.drop j).take n))).flatten)

/-- The value expandshingle stores for a key it inserts: a wildcard
pattern receives its residual count, a plain table shingle receives its
table count.  Both are functions of the key, the table and the selection
parameters only. -/
def storedValue (cfg : Cfg) (k : Str) : Nat :=
  if k.count cfg.wildcard ≠ 0 then
    (select_most_frequent_shingles cfg (patternMatches cfg k)).2
  else dbGet cfg.db k

/-- A shingle is covered by a memo when it is itself a key or some key
pattern matches it. -/
def coveredB (wc : Char) (memo : Memo) (s : Str) : Bool :=
  memo.any (fun kv => kv.1 == s || rmatch wc kv.1 s)

/-- Candidate reading of the wildcard semantics stated by the claim: any
single character is accepted at a wildcard position. -/
def specAnyMatch (wc : Char) (p t : Str) : Bool :=
  p.length == t.length && (p.zip t).all (fun pr => pr.1 == wc || pr.1 == pr.2)

/-- The walk of the candidate selector as worded by the claim: a match is
selected exactly when its count reaches min_samples_leaf and the
cumulative fraction of the total after adding it does not exceed the
threshold; the walk stops at the first match that would exceed the
threshold.  Returns the selected pairs. -/
def selectSpecWalk (minLeaf : Int) (threshold : ℚ) (total : Nat) :
    List (Str × Nat) → Nat → List (Str × Nat)
  | [], _ => []
  | (key, v) :: rest, acc =>
    if minLeaf ≤ (v : Int) then
      if threshold < ((acc + v : Nat) : ℚ) / (total : ℚ) then []
      else (key, v) :: selectSpecWalk minLeaf threshold total rest (acc + v)
    else selectSpecWalk minLeaf threshold total rest acc

/-- The candidate selector as worded by the claim: zero matches give an
empty selection with residual 0, one match gives an empty selection with
that count as residual, a total below min_samples_split gives an empty
selection with the total as residual, and otherwise all matches except
the least frequent are walked in descending count order and the residual
is the total minus the sum of the selected counts. -/
def selectSpec (cfg : Cfg) (matchList : List Str) : List Str × Nat :=
  let candidates := cfg.db.filter (fun kv => matchList.contains kv.1)
  if candidates.length = 0 then ([], 0)
  else if candidates.length = 1 then ([], (candidates.headD ([], 0)).2)
  else
    let sorted := sortByCountDesc candidates
    let total : Nat := (sorted.map (·.2)).sum
    if (total : Int) < cfg.minSamplesSplit then ([], total)
    else
      let sel := selectSpecWalk cfg.minSamplesLeaf cfg.threshold total sorted.dropLast 0
      (sel.map (·.1), total - (sel.map (·.2)).sum)

/-- Concrete configuration for the claim C1 counterexample. -/
def cfgC1 : Cfg := ⟨[(['a', 'b'], 10), (['a', 'c'], 1)], '?', 1, 2, 1, 1⟩

/-- Concrete configuration for the claim C9 witness. -/
def cfgC9 : Cfg := ⟨[(['a', 'b'], 3), (['a', 'c'], 4), (['a', 'd'], 5)], '?', 1, 1, 1, 1⟩



/-! ### Basic lemmas about the memo association list -/

theorem plookup_append (m e : Memo) (k : Str) :
    plookup (m ++ e) k = (plookup m k).or (plookup e k) := by
  induction m with
  | nil => simp [plookup]
  | cons kv m ih =>
    by_cases h : kv.1 == k
    · simp [plookup, h]
    · simp [plookup, h, ih]

theorem plookup_append_some {m : Memo} {k : Str} {v : Nat} (e : Memo)
    (h : plookup m k = some v) : plookup (m ++ e) k = some v := by
  rw [plookup_append, h]
  rfl

theorem plookup_append_cases {m : Memo} {a k : Str} {b v : Nat}
    (h : plookup (m ++ [(a, b)]) k = some v) :
    plookup m k = some v ∨ (k = a ∧ v = b) := by
  rw [plookup_append] at h
  cases hm : plookup m k with
  | some w =>
    rw [hm] at h
    exact Or.inl (by simpa using h)
  | none =>
    rw [hm] at h
    simp only [Option.none_or, plookup] at h
    by_cases hak : a == k
    · have ha : a = k := by simpa using hak
      refine Or.inr ⟨ha.symm, ?_⟩
      simp only [hak, if_true] at h
      simpa using h.symm
    · simp [hak] at h

theorem mem_memoKeys_append {m e : Memo} {k : Str} (h : k ∈ memoKeys m) :
    k ∈ memoKeys (m ++ e) := by
  simp only [memoKeys, List.map_append, List.mem_append]
  exact Or.inl h

theorem plookup_isSome_iff_mem {m : Memo} {k : Str} :
    (plookup m k).isSome ↔ k ∈ memoKeys m := by
  induction m with
  | nil => simp [plookup, memoKeys]
  | cons kv m ih =>
    by_cases h : kv.1 == k
    · have : kv.1 = k := by simpa using h
      simp [plookup, h, memoKeys, this]
    · have : ¬ kv.1 = k := by simpa using h
      simp [plookup, h, memoKeys, ih, memoKeys, Ne.symm this]

theorem plookup_some_mem_keys {m : Memo} {k : Str} {v : Nat}
    (h : plookup m k = some v) : k ∈ memoKeys m :=
  plookup_isSome_iff_mem.mp (by simp [h])

/-! ### The result memo extends the input memo -/

theorem foldl_extend {α : Type} (g : Memo → α → Memo) (l : List α)
    (hg : ∀ m x, x ∈ l → ∃ e, g m x = m ++ e) :
    ∀ m : Memo, ∃ e, l.foldl g m = m ++ e := by
  induction l with
  | nil => exact fun m => ⟨[], by simp⟩
  | cons a l ih =>
    intro m
    obtain ⟨e1, he1⟩ := hg m a (by simp)
    obtain ⟨e2, he2⟩ := ih (fun m' x hx => hg m' x (List.mem_cons_of_mem a hx)) (g m a)
    refine ⟨e1 ++ e2, ?_⟩
    rw [List.foldl_cons, he2, he1, List.append_assoc]

theorem expandStep_extend (cfg : Cfg) (rec : Str → Memo → Memo)
    (hrec : ∀ s m, ∃ e, rec s m = m ++ e) (m : Memo) (snew : Str) :
    ∃ e, expandStep cfg rec m snew = m ++ e := by
  rw [expandStep]
  split
  · exact ⟨[], by simp⟩
  · dsimp only
    split
    · obtain ⟨e1, he1⟩ := hrec snew
        (m ++ [(snew, (select_most_frequent_shingles cfg (patternMatches cfg snew)).2)])
      obtain ⟨e2, he2⟩ := foldl_extend
        (fun m key => if (plookup m key).isSome then m
          else rec key (m ++ [(key, dbGet cfg.db key)]))
        (select_most_frequent_shingles cfg (patternMatches cfg snew)).1
        (fun m' key _ => by
          beta_reduce
          split
          · exact ⟨[], by simp⟩
          · obtain ⟨e, he⟩ := hrec key (m' ++ [(key, dbGet cfg.db key)])
            exact ⟨[(key, dbGet cfg.db key)] ++ e, by rw [he, List.append_assoc]⟩)
        (rec snew (m ++ [(snew, (select_most_frequent_shingles cfg (patternMatches cfg snew)).2)]))
      refine ⟨[(snew, (select_most_frequent_shingles cfg (patternMatches cfg snew)).2)] ++ (e1 ++ e2), ?_⟩
      rw [he2, he1, List.append_assoc, List.append_assoc]
    · exact ⟨[], by simp⟩

theorem expandGo_extend (cfg : Cfg) :
    ∀ (fuel : Nat) (s : Str) (m : Memo), ∃ e, expandGo cfg fuel s m = m ++ e := by
  intro fuel
  induction fuel with
  | zero => exact fun s m => ⟨[], by simp [expandGo]⟩
  | succ fuel ih =>
    intro s m
    rw [expandGo]
    split
    · exact ⟨[], by simp⟩
    · exact foldl_extend _ _
        (fun m' x _ => expandStep_extend cfg _ (fun s' m'' => ih s' m'') m' x) m

/-! ### Claim C6: guard order and missing threshold validation in expandshingle -/

/-- Claim C6 (corrected): expandshingle raises the invalid-configuration
error for min_samples_split below 1 only when the wildcard-count guard has
not already returned: a shingle holding at least max_wildcards wildcard
markers makes the call return the memo unchanged without any validation.
The threshold is not validated by expandshingle at all: whenever
min_samples_split is at least 1 the call succeeds for every threshold
value. -/
theorem c6_guard_order (cfg : Cfg) (fuel : Nat) (s : Str) (memo : Memo) :
    (s.count cfg.wildcard < cfg.maxWildcards → cfg.minSamplesSplit < 1 →
      expandshingle cfg fuel s memo =
        Except.error "min_samples_split must be greater equal 1")
  ∧ (cfg.maxWildcards ≤ s.count cfg.wildcard →
      expandshingle cfg fuel s memo = Except.ok memo)
  ∧ (1 ≤ cfg.minSamplesSplit →
      expandshingle cfg fuel s memo =
        Except.ok (if cfg.maxWildcards ≤ s.count cfg.wildcard then memo
          else expandGo cfg fuel s memo)) := by
  refine ⟨?_, ?_, ?_⟩
  · intro h1 h2
    rw [expandshingle, if_neg (by omega), if_pos h2]
  · intro h1
    rw [expandshingle, if_pos h1]
  · intro h1
    by_cases h2 : cfg.maxWildcards ≤ s.count cfg.wildcard
    · rw [expandshingle, if_pos h2, if_pos h2]
    · rw [expandshingle, if_neg h2, if_neg (by omega), if_neg h2]

/-- Witness for claim C6: a concrete call where the error fires. -/
theorem c6_guard_order_witness :
    expandshingle ⟨[], '?', 1, 0, 1, 1⟩ 3 ['a'] [] =
      Except.error "min_samples_split must be greater equal 1" :=
  (c6_guard_order ⟨[], '?', 1, 0, 1, 1⟩ 3 ['a'] []).1 (by decide) (by decide)

/-- Counterexample for claim C6 as stated: a call with min_samples_split
equal to 0 on a shingle that already consists of the wildcard marker
returns the memo unchanged instead of failing, because the wildcard-count
guard fires before the validation. -/
theorem c6_counterexample :
    expandshingle ⟨[], '?', 1, 0, 1, 1⟩ 3 ['?'] [] = Except.ok [] := by
  with_unfolding_all decide

/-! ### Claim C2: the wildcard position accepts word characters only -/

/-- Counterexample for claim C2 as stated: the token of a space after the
letter a has the same length as the pattern of a wildcard after the
letter a and agrees on the non-wildcard position, yet the matcher rejects
it, because the wildcard compiles to a word-character class and a space
is not a word character. -/
theorem c2_counterexample :
    specAnyMatch '?' ['a', '?'] ['a', ' '] = true ∧
      rmatch '?' ['a', '?'] ['a', ' '] = false := by
  decide

/-- Claim C2 (corrected): a token matches a pattern if and only if it has
the same length, equals the pattern at every non-wildcard position, and
carries a word character, not an arbitrary character, at every wildcard
position.  The same matcher model covers the mining queries and the
compiled patterns, which are built by the identical regex construction. -/
theorem c2_wildcard_is_word_class (wc : Char) (p t : Str) :
    rmatch wc p t = true ↔
      (p.length = t.length ∧ ∀ pr ∈ p.zip t,
        (pr.1 = wc → isWordChar pr.2 = true) ∧ (pr.1 ≠ wc → pr.2 = pr.1)) := by
  induction p generalizing t with
  | nil => cases t <;> simp [rmatch]
  | cons pc ps ih =>
    cases t with
    | nil => simp [rmatch]
    | cons tc ts =>
      simp only [rmatch, Bool.and_eq_true, List.zip_cons_cons, List.mem_cons,
        List.length_cons, ih ts]
      constructor
      · rintro ⟨h1, h2, h3⟩
        refine ⟨by omega, ?_⟩
        rintro pr (rfl | hpr)
        · by_cases hw : pc = wc
          · simp only [hw, beq_self_eq_true, if_true] at h1
            exact ⟨fun _ => h1, fun hn => absurd hw hn⟩
          · rw [if_neg (by simpa using hw)] at h1
            refine ⟨fun he => absurd he hw, fun _ => ?_⟩
            have hpt : pc = tc := by simpa using h1
            exact hpt.symm
        · exact h3 pr hpr
      · rintro ⟨h1, h2⟩
        refine ⟨?_, by omega, fun pr hpr => h2 pr (Or.inr hpr)⟩
        obtain ⟨hwc, hlit⟩ := h2 (pc, tc) (Or.inl rfl)
        by_cases hw : pc = wc
        · simpa [hw] using hwc hw
        · rw [if_neg (by simpa using hw)]
          simpa using (hlit hw).symm

/-! ### Claim C4: first match index and the unknown-id fallback -/

theorem ewpLoop_eq_none {wc : Char} {x : Str} :
    ∀ (l : List Str) (i : Nat), (∀ p ∈ l, rmatch wc p x = false) →
      ewpLoop wc x l i = none := by
  intro l
  induction l with
  | nil => intro i _; rfl
  | cons p rest ih =>
    intro i h
    rw [ewpLoop, if_neg (by simp [h p (by simp)])]
    exact ih (i + 1) (fun q hq => h q (List.mem_cons_of_mem p hq))

theorem ewpLoop_first {wc : Char} {x : Str} :
    ∀ (l : List Str) (i j : Nat) (hj : j < l.length),
      rmatch wc (l.get ⟨j, hj⟩) x = true →
      (∀ j2, (h2 : j2 < j) → rmatch wc (l.get ⟨j2, by omega⟩) x = false) →
      ewpLoop wc x l i = some (i + j) := by
  intro l
  induction l with
  | nil => intro i j hj; exact absurd hj (by simp)
  | cons p rest ih =>
    intro i j hj hmatch hbefore
    cases j with
    | zero =>
      simp only [List.get] at hmatch
      rw [ewpLoop, if_pos hmatch, Nat.add_zero]
    | succ j =>
      have h0 : rmatch wc p x = false := hbefore 0 (by omega)
      rw [ewpLoop, if_neg (by simp [h0])]
      have := ih (i + 1) j (by simpa using Nat.lt_of_succ_lt_succ hj)
        (by simpa using hmatch)
        (fun j2 h2 => by simpa using hbefore (j2 + 1) (by omega))
      rw [this]
      congr 1
      omega

/-- Claim C4 (corrected): encode_with_patterns returns the index of the
first matcher of the bucket of the token length that matches; when no
matcher matches or that bucket is absent, it returns the supplied unknown
id only when that id is present and nonzero, and otherwise returns the
size of the bucket of the token length, which is 0 for an absent bucket
and in general differs from the total count of compiled patterns. -/
theorem c4_unknown_id (wc : Char) (ps : List (Nat × List Str))
    (unkid : Option Int) (x : Str) :
    ((∀ p ∈ pget ps x.length, rmatch wc p x = false) →
      encode_with_patterns wc ps unkid x =
        match unkid with
        | some u => if u = 0 then ((pget ps x.length).length : Int) else u
        | none => ((pget ps x.length).length : Int))
  ∧ (∀ j, (hj : j < (pget ps x.length).length) →
      rmatch wc ((pget ps x.length).get ⟨j, hj⟩) x = true →
      (∀ j2, (h2 : j2 < j) → rmatch wc ((pget ps x.length).get ⟨j2, by omega⟩) x = false) →
      encode_with_patterns wc ps unkid x = (j : Int)) := by
  constructor
  · intro h
    simp only [encode_with_patterns]
    rw [ewpLoop_eq_none (pget ps x.length) 0 h]
  · intro j hj hmatch hbefore
    simp only [encode_with_patterns]
    rw [ewpLoop_first (pget ps x.length) 0 j hj hmatch hbefore]
    simp

/-- Witness for claim C4: a token whose length has no bucket resolves to
the fallback id 0, the size of the absent bucket. -/
theorem c4_unknown_id_witness :
    encode_with_patterns '?' [(1, [['a']])] none ['b', 'c'] = 0 := by
  have h := (c4_unknown_id '?' [(1, [['a']])] none ['b', 'c']).1 (by decide)
  simpa using h

/-- Counterexample for claim C4 as stated: with two compiled patterns in
the length-2 bucket and no supplied unknown id, a token of length 3 is
encoded as 0, the size of its absent bucket, while the claim predicts the
total pattern count 2. -/
theorem c4_counterexample :
    encode_with_patterns '?' [(2, [['a', 'b'], ['a', 'c']])] none ['x', 'y', 'z'] = 0 ∧
      patternsTotal [(2, [['a', 'b'], ['a', 'c']])] = 2 ∧ (0 : Int) ≠ 2 := by
  refine ⟨by decide, by decide, by decide⟩

/-! ### Claim C1: selected shingles are inserted only with the pattern -/

theorem mem_memoKeys_append_self (m : Memo) (k : Str) (v : Nat) :
    k ∈ memoKeys (m ++ [(k, v)]) := by
  simp [memoKeys]

theorem foldl_mem_keys (g : Memo → Str → Memo)
    (hext : ∀ m x, ∃ e, g m x = m ++ e)
    (hin : ∀ m x, x ∈ memoKeys (g m x)) :
    ∀ (l : List Str) (m : Memo) (x : Str), x ∈ l → x ∈ memoKeys (l.foldl g m) := by
  intro l
  induction l with
  | nil => intro m x hx; exact absurd hx (by simp)
  | cons a l ih =>
    intro m x hx
    rw [List.foldl_cons]
    rcases List.mem_cons.mp hx with rfl | hx2
    · obtain ⟨e, he⟩ := foldl_extend g l (fun m' y _ => hext m' y) (g m x)
      rw [he]
      exact mem_memoKeys_append (hin m x)
    · exact ih (g m a) x hx2

/-- Claim C1 (corrected): in the candidate loop of expandshingle the
block inserting the selected shingles is nested inside the branch that
stores the pattern, so it runs only when the residual reaches
min_samples_split; in that branch every selected shingle ends up a memo
key, while a residual below min_samples_split leaves the memo unchanged
and in particular inserts no selected shingle. -/
theorem c1_selected_only_with_pattern (cfg : Cfg) (fuel : Nat) (memo : Memo) (snew : Str)
    (hnotin : plookup memo snew = none) :
    ((((select_most_frequent_shingles cfg (patternMatches cfg snew)).2 : Int) <
        cfg.minSamplesSplit →
      expandStep cfg (expandGo cfg fuel) memo snew = memo)
  ∧ (cfg.minSamplesSplit ≤
        ((select_most_frequent_shingles cfg (patternMatches cfg snew)).2 : Int) →
      ∀ k ∈ (select_most_frequent_shingles cfg (patternMatches cfg snew)).1,
        k ∈ memoKeys (expandStep cfg (expandGo cfg fuel) memo snew))) := by
  constructor
  · intro hres
    rw [expandStep, if_neg (by simp [hnotin])]
    dsimp only
    rw [if_neg (by omega)]
  · intro hres k hk
    rw [expandStep, if_neg (by simp [hnotin])]
    dsimp only
    rw [if_pos hres]
    refine foldl_mem_keys _ ?_ ?_ _ _ k hk
    · intro m x
      split
      · exact ⟨[], by simp⟩
      · obtain ⟨e, he⟩ := expandGo_extend cfg fuel x (m ++ [(x, dbGet cfg.db x)])
        exact ⟨[(x, dbGet cfg.db x)] ++ e, by rw [he, List.append_assoc]⟩
    · intro m x
      split
      · exact plookup_isSome_iff_mem.mp (by assumption)
      · obtain ⟨e, he⟩ := expandGo_extend cfg fuel x (m ++ [(x, dbGet cfg.db x)])
        rw [he]
        exact mem_memoKeys_append (mem_memoKeys_append_self m x (dbGet cfg.db x))

/-- Witness for claim C1: in the concrete configuration the candidate
pattern of the letter a followed by the wildcard has residual 1 below
min_samples_split 2, and its processing step leaves the empty memo
unchanged. -/
theorem c1_witness :
    expandStep cfgC1 (expandGo cfgC1 8) [] ['a', '?'] = [] :=
  (c1_selected_only_with_pattern cfgC1 8 [] ['a', '?'] rfl).1
    (by with_unfolding_all decide)

/-- Counterexample for claim C1 as stated: expanding the shingle of the
single letter a over the table of ab with count 10 and ac with count 1 at
threshold 1, min_samples_split 2 and min_samples_leaf 1 processes the
candidate pattern of a followed by the wildcard, whose selector selects
ab with residual 1; the claim predicts that ab, not being a memo key, is
inserted regardless of the pattern branch, but the run returns the empty
memo. -/
theorem c1_counterexample :
    ['a', '?'] ∈ wildcardVariants cfgC1.wildcard ['a']
  ∧ select_most_frequent_shingles cfgC1 (patternMatches cfgC1 ['a', '?']) = ([['a', 'b']], 1)
  ∧ expandshingle cfgC1 9 ['a'] [] = Except.ok [] := by
  refine ⟨by decide, by with_unfolding_all decide, by with_unfolding_all decide⟩

/-! ### Claim C5: coverage after a full mining run -/

theorem cewsLoop_extends (cfg : Cfg) (fuel : Nat) (vocabSize : Option Nat) :
    ∀ (l : List Str) (memo res : Memo),
      cewsLoop cfg fuel vocabSize l memo = Except.ok res → ∃ e, res = memo ++ e := by
  intro l
  induction l with
  | nil =>
    intro memo res h
    rw [cewsLoop] at h
    exact ⟨[], by simpa using (Except.ok.inj h).symm⟩
  | cons s rest ih =>
    intro memo res h
    rw [cewsLoop] at h
    cases he : expandshingle cfg fuel s memo with
    | error e =>
      rw [he] at h
      simp only [bind, Except.bind] at h
      exact absurd h (by simp)
    | ok m2 =>
      rw [he] at h
      have hm2 : ∃ e1, m2 = memo ++ e1 := by
        rw [expandshingle] at he
        split at he
        · exact ⟨[], by simpa using (Except.ok.inj he).symm⟩
        · split at he
          · exact absurd he (by simp)
          · obtain ⟨e1, he1⟩ := expandGo_extend cfg fuel s memo
            exact ⟨e1, by rw [← Except.ok.inj he, he1]⟩
      obtain ⟨e1, he1⟩ := hm2
      simp only [bind, Except.bind] at h
      split at h
      · split at h
        · exact ⟨e1, by rw [← Except.ok.inj h, he1]⟩
        · obtain ⟨e2, he2⟩ := ih m2 res h
          exact ⟨e1 ++ e2, by rw [he2, he1, List.append_assoc]⟩
      · obtain ⟨e2, he2⟩ := ih m2 res h
        exact ⟨e1 ++ e2, by rw [he2, he1, List.append_assoc]⟩

/-- Claim C5 (corrected): the general coverage claim fails, but the
length-one part survives: when the seed memo is empty, cews preloads
every length-1 shingle of the table and the memo only ever grows, so
every length-1 table shingle is a key of the returned memo; for longer
shingles no coverage is guaranteed, as the counterexample shows. -/
theorem c5_length_one_coverage (db : DB) (wc : Char) (maxW : Nat)
    (minSplitOpt : Option Int) (minLeaf : Int) (threshold : ℚ)
    (priority : String) (vocabSize : Option Nat) (fuel : Nat) (res : Memo)
    (hrun : cews db [] wc maxW minSplitOpt minLeaf threshold priority vocabSize fuel =
      Except.ok res) :
    ∀ kv ∈ db, kv.1.length = 1 → kv.1 ∈ memoKeys res := by
  intro kv hkv hlen
  simp only [cews, List.length_nil, if_pos rfl] at hrun
  split at hrun
  · obtain ⟨e, he⟩ := cewsLoop_extends _ _ _ _ _ _ hrun
    rw [he]
    apply mem_memoKeys_append
    simp only [memoKeys, List.mem_map]
    exact ⟨kv, List.mem_filter.mpr ⟨hkv, by simp [hlen]⟩, rfl⟩
  · exact absurd hrun (by simp)

/-- Witness for claim C5: a table with the single length-1 shingle a;
after mining, a is a memo key. -/
theorem c5_witness : (['a'] : Str) ∈ memoKeys [((['a'] : Str), 2)] :=
  c5_length_one_coverage [(['a'], 2)] '?' 1 none 1 1 "common" none 9 [(['a'], 2)]
    (by with_unfolding_all decide) (['a'], 2) (by simp) rfl

/-- Counterexample for claim C5 as stated: over the table holding only ab
with count 5, a full serial cews run with default parameters returns the
empty memo, so the shingle ab with count 5 at least min_samples_leaf 1 is
neither a memo key nor matched by any wildcard-pattern key. -/
theorem c5_counterexample :
    cews [(['a', 'b'], 5)] [] '?' 1 none 1 (4 / 5) "common" none 9 = Except.ok []
  ∧ (1 : Int) ≤ (5 : Int)
  ∧ coveredB '?' [] ['a', 'b'] = false := by
  refine ⟨by with_unfolding_all decide, by decide, by decide⟩

/-! ### Claim C9: inserted values do not depend on the incoming memo -/

theorem mem_of_wildcardVariants {wc : Char} {s p : Str}
    (h : p ∈ wildcardVariants wc s) : wc ∈ p := by
  rw [wildcardVariants] at h
  have base : p ∈ [wc :: s, s ++ [wc]] → wc ∈ p := by
    intro hb
    rcases List.mem_cons.mp hb with rfl | hb2
    · exact List.mem_cons_self wc s
    · simp at hb2
      rw [hb2]
      simp
  split at h
  · rcases List.mem_append.mp h with hb | hm
    · exact base hb
    · obtain ⟨i, _, rfl⟩ := List.mem_map.mp hm
      simp
  · exact base h

theorem count_ne_zero_of_wildcardVariants {wc : Char} {s p : Str}
    (h : p ∈ wildcardVariants wc s) : p.count wc ≠ 0 := by
  have := mem_of_wildcardVariants h
  simpa [List.count_eq_zero] using this

theorem selectWalk_sel_sub {minLeaf : Int} {threshold : ℚ} {total : Nat} :
    ∀ (l : List (Str × Nat)) (cumpct : ℚ) (cumcnt : Nat) (k : Str),
      k ∈ (selectWalk minLeaf threshold total l cumpct cumcnt).1 → ∃ v, (k, v) ∈ l := by
  intro l
  induction l with
  | nil => intro cumpct cumcnt k hk; exact absurd hk (by simp [selectWalk])
  | cons kv rest ih =>
    intro cumpct cumcnt k hk
    obtain ⟨key, v⟩ := kv
    rw [selectWalk] at hk
    split at hk
    · dsimp only at hk
      split at hk
      · exact absurd hk (by simp)
      · rcases List.mem_cons.mp hk with rfl | hk2
        · exact ⟨v, by simp⟩
        · obtain ⟨v2, hv2⟩ := ih _ _ k hk2
          exact ⟨v2, List.mem_cons_of_mem _ hv2⟩
    · obtain ⟨v2, hv2⟩ := ih _ _ k hk
      exact ⟨v2, List.mem_cons_of_mem _ hv2⟩

theorem select_sel_mem_db (cfg : Cfg) (ml : List Str) (k : Str)
    (h : k ∈ (select_most_frequent_shingles cfg ml).1) : ∃ v, (k, v) ∈ cfg.db := by
  rw [select_most_frequent_shingles] at h
  split at h
  · exact absurd h (by simp)
  · split at h
    · exact absurd h (by simp)
    · dsimp only at h
      split at h
      · exact absurd h (by simp)
      · obtain ⟨v, hv⟩ := selectWalk_sel_sub _ _ _ k h
        have h1 : (k, v) ∈ sortByCountDesc (cfg.db.filter (fun kv => ml.contains kv.1)) :=
          (List.dropLast_sublist _).mem hv
        have h2 : (k, v) ∈ cfg.db.filter (fun kv => ml.contains kv.1) :=
          (List.perm_insertionSort _ _).mem_iff.mp h1
        exact ⟨v, (List.mem_filter.mp h2).1⟩

theorem foldl_values {α : Type} (g : Memo → α → Memo) (l : List α) (Q : Str → Nat → Prop)
    (hg : ∀ m x, x ∈ l → ∀ k v, plookup (g m x) k = some v → plookup m k = some v ∨ Q k v) :
    ∀ m k v, plookup (l.foldl g m) k = some v → plookup m k = some v ∨ Q k v := by
  induction l with
  | nil => intro m k v h; exact Or.inl h
  | cons a l ih =>
    intro m k v h
    rw [List.foldl_cons] at h
    rcases ih (fun m' x hx => hg m' x (List.mem_cons_of_mem a hx)) (g m a) k v h with h2 | h2
    · exact hg m a (by simp) k v h2
    · exact Or.inr h2

theorem expandStep_values (cfg : Cfg)
    (hwf : ∀ kv ∈ cfg.db, cfg.wildcard ∉ kv.1)
    (rec : Str → Memo → Memo)
    (hrecv : ∀ s m k v, plookup (rec s m) k = some v →
      plookup m k = some v ∨ v = storedValue cfg k)
    (m : Memo) (snew : Str) (hsnew : snew.count cfg.wildcard ≠ 0) :
    ∀ k v, plookup (expandStep cfg rec m snew) k = some v →
      plookup m k = some v ∨ v = storedValue cfg k := by
  intro k v h
  rw [expandStep] at h
  split at h
  · exact Or.inl h
  · dsimp only at h
    split at h
    · have hbase : ∀ k2 v2,
          plookup (rec snew (m ++
            [(snew, (select_most_frequent_shingles cfg (patternMatches cfg snew)).2)])) k2 =
            some v2 →
          plookup m k2 = some v2 ∨ v2 = storedValue cfg k2 := by
        intro k2 v2 h2
        rcases hrecv _ _ _ _ h2 with h3 | h3
        · rcases plookup_append_cases h3 with h4 | ⟨rfl, rfl⟩
          · exact Or.inl h4
          · refine Or.inr ?_
            rw [storedValue, if_pos hsnew]
        · exact Or.inr h3
      have hg : ∀ m2 x, x ∈ (select_most_frequent_shingles cfg (patternMatches cfg snew)).1 →
          ∀ k2 v2,
          plookup ((fun m3 key => if (plookup m3 key).isSome then m3
            else rec key (m3 ++ [(key, dbGet cfg.db key)])) m2 x) k2 = some v2 →
          plookup m2 k2 = some v2 ∨ v2 = storedValue cfg k2 := by
        intro m2 x hx k2 v2 h2
        dsimp only at h2
        split at h2
        · exact Or.inl h2
        · rcases hrecv _ _ _ _ h2 with h3 | h3
          · rcases plookup_append_cases h3 with h4 | ⟨hk2, hv2⟩
            · exact Or.inl h4
            · refine Or.inr ?_
              obtain ⟨v0, hv0⟩ := select_sel_mem_db cfg (patternMatches cfg snew) x hx
              have hwcx : cfg.wildcard ∉ x := hwf (x, v0) hv0
              rw [hk2, hv2, storedValue,
                if_neg (by simpa [List.count_eq_zero] using hwcx)]
          · exact Or.inr h3
      rcases foldl_values _ _ (fun k2 v2 => v2 = storedValue cfg k2) hg _ k v h with hbv | hq
      · exact hbase k v hbv
      · exact Or.inr hq
    · exact Or.inl h

theorem expandGo_values (cfg : Cfg)
    (hwf : ∀ kv ∈ cfg.db, cfg.wildcard ∉ kv.1) :
    ∀ (fuel : Nat) (s : Str) (m : Memo) (k : Str) (v : Nat),
      plookup (expandGo cfg fuel s m) k = some v →
      plookup m k = some v ∨ v = storedValue cfg k := by
  intro fuel
  induction fuel with
  | zero => intro s m k v h; exact Or.inl h
  | succ fuel ih =>
    intro s m k v h
    rw [expandGo] at h
    split at h
    · exact Or.inl h
    · refine foldl_values _ _ (fun k2 v2 => v2 = storedValue cfg k2) ?_ _ k v h
      intro m2 x hx k2 v2 h2
      exact expandStep_values cfg hwf _ (fun s2 m3 k3 v3 => ih s2 m3 k3 v3) m2 x
        (count_ne_zero_of_wildcardVariants hx) k2 v2 h2

/-- Claim C9 (confirmed): under the reserved-wildcard invariant of the
specification data model, namely that the wildcard marker never occurs in
a table key, the value expandshingle stores for any key it inserts is a
function of the key, the table and the selection parameters only: two
runs over the same table and parameters starting from different memos
that both insert a key store the same value, so unioning worker result
maps as done in cews_cpu is order independent on every key.  A key with
the wildcard always receives its residual count, and a key without the
wildcard is always a selected table key receiving its table count. -/
theorem c9_memo_independent_values (cfg : Cfg)
    (hwf : ∀ kv ∈ cfg.db, cfg.wildcard ∉ kv.1)
    (fuel1 fuel2 : Nat) (s1 s2 : Str) (m1 m2 : Memo) (k : Str) (v1 v2 : Nat)
    (h1 : plookup m1 k = none) (h2 : plookup m2 k = none)
    (r1 : plookup (expandGo cfg fuel1 s1 m1) k = some v1)
    (r2 : plookup (expandGo cfg fuel2 s2 m2) k = some v2) :
    v1 = v2 := by
  rcases expandGo_values cfg hwf fuel1 s1 m1 k v1 r1 with h | h
  · rw [h1] at h
    exact absurd h (by simp)
  · rcases expandGo_values cfg hwf fuel2 s2 m2 k v2 r2 with h3 | h3
    · rw [h2] at h3
      exact absurd h3 (by simp)
    · rw [h, h3]

/-- Witness for claim C9: two runs expanding the letter a over the same
table, one from the empty memo and one from a memo already holding an
unrelated key, both insert the pattern of a followed by the wildcard with
residual 3. -/
theorem c9_witness : (3 : Nat) = 3 :=
  c9_memo_independent_values cfgC9 (by decide) 5 5 ['a'] ['a'] [] [(['z'], 1)]
    ['a', '?'] 3 3 rfl rfl (by with_unfolding_all decide)
    (by with_unfolding_all decide)

/-! ### Claim C7: the selector agrees with its specification wording -/

theorem selectWalk_eq_specWalk (minLeaf : Int) (threshold : ℚ) (total : Nat) :
    ∀ (l : List (Str × Nat)) (acc : Nat),
      selectWalk minLeaf threshold total l ((acc : ℚ) / (total : ℚ)) acc =
        ((selectSpecWalk minLeaf threshold total l acc).map (·.1),
          acc + ((selectSpecWalk minLeaf threshold total l acc).map (·.2)).sum) := by
  intro l
  induction l with
  | nil => intro acc; simp [selectWalk, selectSpecWalk]
  | cons kv rest ih =>
    intro acc
    obtain ⟨key, v⟩ := kv
    rw [selectWalk, selectSpecWalk]
    by_cases h1 : minLeaf ≤ (v : Int)
    · rw [if_pos h1, if_pos h1]
      have hdiv : (acc : ℚ) / (total : ℚ) + (v : ℚ) / (total : ℚ) =
          ((acc + v : Nat) : ℚ) / (total : ℚ) := by
        push_cast
        rw [div_add_div_same]
      rw [hdiv]
      by_cases h2 : threshold < ((acc + v : Nat) : ℚ) / (total : ℚ)
      · rw [if_pos h2, if_pos h2]
        simp
      · rw [if_neg h2, if_neg h2]
        rw [ih (acc + v)]
        simp [Nat.add_assoc]
    · rw [if_neg h1, if_neg h1]
      exact ih acc

/-- Claim C7 (confirmed): select_most_frequent_shingles agrees with the
wording of the claim: an empty candidate set yields an empty selection
with residual 0, a single candidate yields an empty selection with its
count as residual, a total below min_samples_split yields an empty
selection with the total as residual, and otherwise the walk over all
candidates but the least frequent one, in descending stable order,
selects a match exactly when its count reaches min_samples_leaf and the
cumulative fraction of the total after adding it does not exceed the
threshold, stops at the first match that would exceed the threshold, and
the residual is the total minus the sum of the selected counts. -/
theorem c7_selector_matches_spec (cfg : Cfg) (ml : List Str) :
    select_most_frequent_shingles cfg ml = selectSpec cfg ml := by
  rw [select_most_frequent_shingles, selectSpec]
  dsimp only
  split
  · rfl
  · split
    · rfl
    · split
      · rfl
      · have h := selectWalk_eq_specWalk cfg.minSamplesLeaf cfg.threshold
          ((List.map (fun x => x.2)
            (sortByCountDesc (cfg.db.filter (fun kv => ml.contains kv.1)))).sum)
          (sortByCountDesc (cfg.db.filter (fun kv => ml.contains kv.1))).dropLast 0
        rw [show ((0 : Nat) : ℚ) /
            ((((List.map (fun x => x.2)
              (sortByCountDesc (cfg.db.filter (fun kv => ml.contains kv.1)))).sum : Nat)) : ℚ) = 0 by
          simp] at h
        rw [h]
        simp

/-! ### Claim C10: unrecognized priority values fall back to common -/

/-- Claim C10 (confirmed): cews never rejects a priority value; for every
priority other than rare the processed shingles are the descending-count
sorted table keys, prefiltered to counts at least min_samples_leaf
exactly when the priority is common and a vocab size is set, and any
other string processes the full table in descending-frequency order. -/
theorem c10_priority_fallback (db : DB) (priority : String) (vocabSize : Option Nat)
    (minLeaf : Int) (h : priority ≠ "rare") :
    (cewsShingles (sortByCountDesc db) priority vocabSize minLeaf =
      if priority = "common" ∧ vocabSize.isSome then
        ((sortByCountDesc db).filter (fun kv => minLeaf ≤ (kv.2 : Int))).map (·.1)
      else (sortByCountDesc db).map (·.1))
  ∧ ∃ L : DB, cewsShingles (sortByCountDesc db) priority vocabSize minLeaf = L.map (·.1)
      ∧ L.Pairwise (fun a b => b.2 ≤ a.2)
      ∧ ∀ kv ∈ L, kv ∈ db := by
  have hsorted : (sortByCountDesc db).Pairwise (fun a b => b.2 ≤ a.2) := by
    haveI ht : IsTotal (Str × Nat) (fun a b => b.2 ≤ a.2) := ⟨fun a b => le_total b.2 a.2⟩
    haveI htr : IsTrans (Str × Nat) (fun a b => b.2 ≤ a.2) :=
      ⟨fun _ _ _ hab hbc => le_trans hbc hab⟩
    exact List.sorted_insertionSort _ db
  have hmem : ∀ kv ∈ sortByCountDesc db, kv ∈ db := fun kv hkv =>
    (List.perm_insertionSort _ db).mem_iff.mp hkv
  constructor
  · rw [cewsShingles, if_neg h]
  · by_cases h2 : priority = "common" ∧ vocabSize.isSome
    · refine ⟨(sortByCountDesc db).filter (fun kv => minLeaf ≤ (kv.2 : Int)), ?_, ?_, ?_⟩
      · rw [cewsShingles, if_neg h, if_pos h2]
      · exact hsorted.filter _
      · intro kv hkv
        exact hmem kv (List.mem_of_mem_filter hkv)
    · refine ⟨sortByCountDesc db, ?_, hsorted, hmem⟩
      rw [cewsShingles, if_neg h, if_neg h2]

/-- Witness for claim C10: the misspelled priority comon silently
processes the whole table in descending order. -/
theorem c10_priority_fallback_witness :
    cewsShingles (sortByCountDesc [(['a'], 1)]) "comon" none 1 = [['a']] := by
  rw [(c10_priority_fallback [(['a'], 1)] "comon" none 1 (by decide)).1]
  with_unfolding_all decide

/-! ### Claim C3: the full-text scan misses overlapping occurrences -/

/-- Claim C3 (code bug): on the text of three letters a with the single
length-2 pattern of two letters a, one match slot and unknown id 7, the
per-token encoder reports the pattern at starting positions 0 and 1,
while encode_multi_match_text reports it only at position 0: the
finditer-style scan resumes after the end of a match, so the overlapping
occurrence at position 1 is skipped and padded with the unknown id,
contradicting the claimed equivalence that the test suite of the package
asserts. -/
theorem c3_finditer_divergence :
    perTokenEncode '?' ['a', 'a', 'a'] 2 [(2, [['a', 'a']])] 1 7 =
      [[7, 0], [7, 0], [7, 7]]
  ∧ encode_multi_match_text '?' ['a', 'a', 'a'] 2 [(2, [['a', 'a']])] 1 7 =
      [[7, 0], [7, 7], [7, 7]] := by
  refine ⟨by with_unfolding_all decide, by with_unfolding_all decide⟩

/-! ### Claim C8: buckets are ordered by the ascending key tuple -/

theorem sort_by_memostats_le_iff (a b : Str × Nat × Nat × Nat × Nat) :
    msLe a b ↔ keyLex (statKey a) (statKey b) := by
  obtain ⟨s1, w1, i1, l1, c1⟩ := a
  obtain ⟨s2, w2, i2, l2, c2⟩ := b
  simp only [msLe, sort_by_memostats, statKey, keyLex]
  split_ifs <;> omega

theorem msLe_total (a b : Str × Nat × Nat × Nat × Nat) : msLe a b ∨ msLe b a := by
  obtain ⟨s1, w1, i1, l1, c1⟩ := a
  obtain ⟨s2, w2, i2, l2, c2⟩ := b
  simp only [msLe, sort_by_memostats]
  split_ifs <;> omega

theorem msLe_trans (a b c : Str × Nat × Nat × Nat × Nat)
    (hab : msLe a b) (hbc : msLe b c) : msLe a c := by
  rw [sort_by_memostats_le_iff] at hab hbc ⊢
  obtain ⟨s1, w1, i1, l1, c1⟩ := a
  obtain ⟨s2, w2, i2, l2, c2⟩ := b
  obtain ⟨s3, w3, i3, l3, c3⟩ := c
  simp only [statKey, keyLex] at hab hbc ⊢
  omega

theorem pget_updBucket : ∀ (ps : List (Nat × List Str)) (m n : Nat) (p : Str),
    pget (updBucket ps m p) n = if m = n then pget ps n ++ [p] else pget ps n := by
  intro ps
  induction ps with
  | nil =>
    intro m n p
    by_cases h : m = n
    · simp [updBucket, pget, h]
    · simp [updBucket, pget, h]
  | cons kv rest ih =>
    intro m n p
    obtain ⟨km, kl⟩ := kv
    rw [updBucket]
    by_cases h1 : km = m
    · rw [if_pos h1]
      subst h1
      by_cases h2 : km = n
      · simp [pget, h2]
      · simp [pget, h2]
    · rw [if_neg h1]
      by_cases h3 : km = n
      · have hmn : m ≠ n := fun he => h1 (by rw [h3, he])
        simp [pget, h3, hmn]
      · simp only [pget, show (km == n) = false by simpa using h3]
        exact ih m n p

theorem pget_foldl_updBucket : ∀ (l : List Str) (ps : List (Nat × List Str)) (n : Nat),
    pget (l.foldl (fun acc s => updBucket acc s.length s) ps) n =
      pget ps n ++ l.filter (fun s => s.length == n) := by
  intro l
  induction l with
  | nil => intro ps n; simp
  | cons s l ih =>
    intro ps n
    rw [List.foldl_cons, ih, pget_updBucket]
    by_cases h : s.length = n
    · simp [List.filter_cons, h]
    · simp [List.filter_cons, h]

theorem memostats_len_field {wc : Char} {memo : Memo}
    {st : Str × Nat × Nat × Nat × Nat} (h : st ∈ memostats wc memo) :
    st.2.2.2.1 = st.1.length := by
  simp only [memostats, List.mem_map] at h
  obtain ⟨kv, _, rfl⟩ := h
  rfl

/-- Claim C8 (confirmed): shingles_to_patterns buckets the sorted memo
keys by length, each bucket holds only keys of its length, the sorted
statistics list is ordered by the ascending key tuple of wildcard count,
negated inner wildcard count, negated length and negated stored count,
and compiling the same memo twice yields identical buckets. -/
theorem c8_bucket_order (wc : Char) (memo : Memo) (n : Nat) :
    (pget (shingles_to_patterns wc memo) n =
      (((memostats wc memo).insertionSort msLe).filter
        (fun st => st.2.2.2.1 == n)).map (·.1))
  ∧ ((memostats wc memo).insertionSort msLe).Pairwise
      (fun a b => keyLex (statKey a) (statKey b))
  ∧ (∀ p ∈ pget (shingles_to_patterns wc memo) n, p.length = n)
  ∧ shingles_to_patterns wc memo = shingles_to_patterns wc memo := by
  have hmemst : ∀ st ∈ (memostats wc memo).insertionSort msLe, st.2.2.2.1 = st.1.length :=
    fun st hst =>
      memostats_len_field ((List.perm_insertionSort _ _).mem_iff.mp hst)
  have hb : pget (shingles_to_patterns wc memo) n =
      (((memostats wc memo).insertionSort msLe).map (·.1)).filter
        (fun s => s.length == n) := by
    rw [shingles_to_patterns, pget_foldl_updBucket]
    simp [pget]
  have hmf : (((memostats wc memo).insertionSort msLe).map (·.1)).filter
        (fun s => s.length == n)
      = (((memostats wc memo).insertionSort msLe).filter
        (fun st => st.1.length == n)).map (·.1) := by
    rw [List.filter_map]
    rfl
  have hfc : (((memostats wc memo).insertionSort msLe).filter
        (fun st => st.1.length == n))
      = (((memostats wc memo).insertionSort msLe).filter
        (fun st => st.2.2.2.1 == n)) := by
    apply List.filter_congr
    intro st hst
    rw [hmemst st hst]
  refine ⟨?_, ?_, ?_, rfl⟩
  · rw [hb, hmf, hfc]
  · have hsorted : ((memostats wc memo).insertionSort msLe).Pairwise msLe := by
      haveI ht : IsTotal (Str × Nat × Nat × Nat × Nat) msLe := ⟨msLe_total⟩
      haveI htr : IsTrans (Str × Nat × Nat × Nat × Nat) msLe :=
        ⟨fun a b c => msLe_trans a b c⟩
      exact List.sorted_insertionSort msLe (memostats wc memo)
    exact hsorted.imp (fun hab => (sort_by_memostats_le_iff _ _).mp hab)
  · intro p hp
    rw [hb] at hp
    have := (List.mem_filter.mp hp).2
    simpa using this

end KShingle
